import Mathlib

/-!
Shallow embedding of the join-planning core
(`noria-server/src/controller/sql/mir/join.rs`): the `JoinChain`
structure, `pick_join_chains`, `from_join_ref` and `make_joins`,
together with proofs of the specified properties.

Rust panics (`unwrap`, `unreachable!`, map indexing) are modelled as
`Except PlanError`; the `HashSet<String>` of chain tables is a
`Finset String`; `Vec` is `List`; `Vec::swap_remove` is `swapRemove`.
-/

namespace NoriaJoin

/-- Opaque model of `nom_sql::ConditionTree` (external crate): the join
core never inspects a predicate, it only passes it through. -/
structure ConditionTree where
  id : Nat
deriving DecidableEq

/-- Model of `dataflow::ops::join::JoinType` as used by this core. -/
inductive JoinType where
  | Inner
  | Left
deriving DecidableEq

/-- Model of `MirNodeRef` handles. Externally supplied nodes (the
leaf-node map's values) are opaque `base` handles; `join` records the
arguments the node-construction collaborator receives. -/
inductive MirNodeRef where
  | base (id : Nat)
  | join (name : String) (jp : ConditionTree) (left : MirNodeRef) (right : MirNodeRef)
      (join_type : JoinType)
deriving DecidableEq

/-- Modelled from the spec: the node-construction collaborator
(`SqlToMirConverter::make_join_node`, outside this core) is "given a
name, a predicate, two input node handles, and a join kind, returns a
new node handle representing the physical join operator". -/
def make_join_node (name : String) (jp : ConditionTree) (left : MirNodeRef)
    (right : MirNodeRef) (join_type : JoinType) : MirNodeRef :=
  MirNodeRef.join name jp left right join_type

/-- Model of `QueryGraphEdge`, restricted to what the join core inspects. -/
inductive QueryGraphEdge where
  | Join (jps : List ConditionTree)
  | LeftJoin (jps : List ConditionTree)
  | GroupBy (gb : Nat)
deriving DecidableEq

/-- Model of `JoinRef`: source relation, destination relation and predicate index. -/
structure JoinRef where
  src : String
  dst : String
  index : Nat
deriving DecidableEq

/-- The two `QueryGraph` fields the join core reads: the edge map
(association list standing in for the `HashMap` keyed by relation
pairs) and the join order. -/
structure QueryGraph where
  edges : List ((String × String) × QueryGraphEdge)
  join_order : List JoinRef

/-- Lookup `qg.edges.get(&(src, dst))`: `HashMap` access keyed by the ordered pair. -/
def edgesGet (qg : QueryGraph) (k : String × String) : Option QueryGraphEdge :=
  (qg.edges.find? (fun e => decide (e.1 = k))).map (fun e => e.2)

/-- The distinct panics of the Rust core, modelled as errors:
`missingEdge` and `missingPredicate` are the two `unwrap`s in
`from_join_ref`, `groupByEdge` is its `unreachable!`, and
`missingRelation` is the panicking map index in `pick_join_chains`. -/
inductive PlanError where
  | missingEdge
  | groupByEdge
  | missingPredicate
  | missingRelation
deriving DecidableEq

/-- Translation of `from_join_ref`: resolve the edge for `(jref.src, jref.dst)`,
classify it and fetch the predicate at `jref.index`. -/
def from_join_ref (jref : JoinRef) (qg : QueryGraph) :
    Except PlanError (JoinType × ConditionTree) :=
  match edgesGet qg (jref.src, jref.dst) with
  | none => Except.error PlanError.missingEdge
  | some (QueryGraphEdge.Join jps) =>
    match jps.get? jref.index with
    | some jp => Except.ok (JoinType.Inner, jp)
    | none => Except.error PlanError.missingPredicate
  | some (QueryGraphEdge.LeftJoin jps) =>
    match jps.get? jref.index with
    | some jp => Except.ok (JoinType.Left, jp)
    | none => Except.error PlanError.missingPredicate
  | some (QueryGraphEdge.GroupBy _) => Except.error PlanError.groupByEdge

/-- Model of `JoinChain`: the set of relations already joined into one connected
intermediate result, plus the node producing that result. -/
structure JoinChain where
  tables : Finset String
  last_node : MirNodeRef
deriving DecidableEq

/-- Translation of `JoinChain::merge_chain`: union of the table sets,
caller-supplied terminal node. -/
def JoinChain.merge_chain (self : JoinChain) (other : JoinChain)
    (last_node : MirNodeRef) : JoinChain :=
  { tables := self.tables ∪ other.tables, last_node := last_node }

/-- Translation of `JoinChain::has_table`. -/
def JoinChain.has_table (self : JoinChain) (table : String) : Bool :=
  decide (table ∈ self.tables)

/-- Translation of `Vec::swap_remove(i)`: move the last element into
slot `i` and pop. -/
def swapRemove {α : Type} (l : List α) (i : Nat) : List α :=
  match l.getLast? with
  | none => l
  | some last => (l.set i last).dropLast

/-- The `iter().position(p)` / `swap_remove(idx)` idiom of
`pick_join_chains`: extract the first chain satisfying `p`. -/
def removeChainWith (p : JoinChain → Bool) (l : List JoinChain) :
    Option (JoinChain × List JoinChain) :=
  match l.findIdx? p with
  | none => none
  | some i =>
    match l[i]? with
    | none => none
    | some c => some (c, swapRemove l i)

/-- Retrieve the chain containing relation `t` from the active set, or
synthesize a singleton chain from `node_for_rel` (whose panicking index
lookup is the `missingRelation` error). Both `match` blocks of
`pick_join_chains` instantiate this. -/
def chainFor (t : String) (join_chains : List JoinChain)
    (node_for_rel : String → Option MirNodeRef) :
    Except PlanError (JoinChain × List JoinChain) :=
  match removeChainWith (fun c => c.has_table t) join_chains with
  | some r => Except.ok r
  | none =>
    match node_for_rel t with
    | some n => Except.ok ({ tables := {t}, last_node := n }, join_chains)
    | none => Except.error PlanError.missingRelation

/-- Result of `pick_join_chains`: the returned pair plus the active set
as left behind by the removals (the function mutates it in Rust). -/
structure PickResult where
  left : JoinChain
  second : Option JoinChain
  chains : List JoinChain
deriving DecidableEq

/-- Translation of `pick_join_chains`. -/
def pick_join_chains (src dst : String) (join_chains : List JoinChain)
    (node_for_rel : String → Option MirNodeRef) : Except PlanError PickResult :=
  match chainFor src join_chains node_for_rel with
  | Except.error e => Except.error e
  | Except.ok (left_chain, chains1) =>
    if left_chain.has_table dst then
      Except.ok { left := left_chain, second := none, chains := chains1 }
    else
      match chainFor dst chains1 node_for_rel with
      | Except.error e => Except.error e
      | Except.ok (right_chain, chains2) =>
        Except.ok { left := left_chain, second := some right_chain, chains := chains2 }

/-- The loop state of `make_joins`: output nodes so far, active chain
set, and the node-name counter. -/
structure MakeJoinsState where
  join_nodes : List MirNodeRef
  join_chains : List JoinChain
  node_count : Nat
deriving DecidableEq

/-- The generated node name, `format!("\x7b\x7d_n\x7b\x7d", name, node_count)`. -/
def joinNodeName (name : String) (node_count : Nat) : String :=
  name ++ "_n" ++ Nat.repr node_count

/-- One iteration of the `make_joins` loop body for a join reference. -/
def make_joins_step (name : String) (qg : QueryGraph)
    (node_for_rel : String → Option MirNodeRef) (st : MakeJoinsState)
    (jref : JoinRef) : Except PlanError MakeJoinsState :=
  match from_join_ref jref qg with
  | Except.error e => Except.error e
  | Except.ok (join_type, jp) =>
    match pick_join_chains jref.src jref.dst st.join_chains node_for_rel with
    | Except.error e => Except.error e
    | Except.ok pick =>
      match pick.second with
      | some right_chain =>
        let jn := make_join_node (joinNodeName name st.node_count) jp
          pick.left.last_node right_chain.last_node join_type
        let new_chain := pick.left.merge_chain right_chain jn
        Except.ok
          { join_nodes := st.join_nodes ++ [jn],
            join_chains := pick.chains ++ [new_chain],
            node_count := st.node_count + 1 }
      | none =>
        Except.ok { st with join_chains := pick.chains ++ [pick.left] }

/-- The loop of `make_joins`, with the final loop state exposed. -/
def make_joins_state (name : String) (qg : QueryGraph)
    (node_for_rel : String → Option MirNodeRef) (node_count : Nat) :
    Except PlanError MakeJoinsState :=
  qg.join_order.foldlM (make_joins_step name qg node_for_rel)
    { join_nodes := [], join_chains := [], node_count := node_count }

/-- Translation of `make_joins`: the returned vector of created join nodes. -/
def make_joins (name : String) (qg : QueryGraph)
    (node_for_rel : String → Option MirNodeRef) (node_count : Nat) :
    Except PlanError (List MirNodeRef) :=
  Except.map (fun st => st.join_nodes) (make_joins_state name qg node_for_rel node_count)

/-! ### Derived notions used by the specified properties -/

deriving instance DecidableEq for Except

/-- Modelled from the spec: the query-graph builder (outside this core)
exposes edges "per unordered relation pair"; for the ordered-key map
that the code reads this is symmetry of the lookup. -/
def EdgesUnordered (qg : QueryGraph) : Prop :=
  ∀ a b : String, edgesGet qg (a, b) = edgesGet qg (b, a)

/-- All relation identifiers referenced by a join-reference sequence. -/
def refRels (P : List JoinRef) : Finset String :=
  P.foldr (fun r s => insert r.src (insert r.dst s)) ∅

/-- Adjacency in the underlying undirected graph of a reference
sequence: relations as vertices, references as edges. -/
def adjRefs (P : List JoinRef) (a b : String) : Prop :=
  ∃ r ∈ P, (r.src = a ∧ r.dst = b) ∨ (r.src = b ∧ r.dst = a)

/-- Connectivity in the underlying undirected graph of a reference
sequence. -/
def ReachRefs (P : List JoinRef) : String → String → Prop :=
  Relation.ReflTransGen (adjRefs P)

/-- Two relations lie in one chain of the active set. -/
def InSameChain (chains : List JoinChain) (a b : String) : Prop :=
  ∃ c ∈ chains, a ∈ c.tables ∧ b ∈ c.tables

/-- The union of the table sets of the active chains. -/
def unionTables (chains : List JoinChain) : Finset String :=
  chains.foldr (fun c s => c.tables ∪ s) ∅

/-- The core invariant: no two live chains share a relation identifier. -/
def ChainsDisjoint (chains : List JoinChain) : Prop :=
  chains.Pairwise (fun c d => Disjoint c.tables d.tables)

/-- Chains are exactly the connected components of the processed
references: table sets are nonempty and pairwise disjoint, cover
exactly the referenced relations, and two relations share a chain
exactly when the processed references connect them. -/
structure ChainsInv (P : List JoinRef) (chains : List JoinChain) : Prop where
  nonempty : ∀ c ∈ chains, c.tables.Nonempty
  disj : ChainsDisjoint chains
  union_eq : unionTables chains = refRels P
  same_reach : ∀ a b : String, InSameChain chains a b → ReachRefs P a b
  reach_same : ∀ a b : String, a ∈ refRels P → ReachRefs P a b → InSameChain chains a b

/-- The name a node handle was created with (`none` for leaf handles). -/
def nodeName : MirNodeRef → Option String
  | MirNodeRef.base _ => none
  | MirNodeRef.join nm _ _ _ _ => some nm

/-- Numeric value of a decimal digit character. -/
def charVal (c : Char) : Nat := c.toNat - 48

/-- Numeric value of a decimal digit string, most significant first. -/
def digitsVal (ds : List Char) : Nat := ds.foldl (fun a c => 10 * a + charVal c) 0

/-- Leaf-node map used by the witnesses: relations `A`, `B`, `C`. -/
def wNfr : String → Option MirNodeRef :=
  fun t =>
    if t = "A" then some (MirNodeRef.base 0)
    else if t = "B" then some (MirNodeRef.base 1)
    else if t = "C" then some (MirNodeRef.base 2)
    else none

/-- Symmetric one-predicate query graph over `A` and `B` used by the
witnesses. -/
def wQg : QueryGraph :=
  { edges := [(("A", "B"), QueryGraphEdge.Join [⟨0⟩]),
              (("B", "A"), QueryGraphEdge.Join [⟨0⟩])],
    join_order := [⟨"A", "B", 0⟩] }

/-- The single join node the witnesses create. -/
def wJn : MirNodeRef :=
  MirNodeRef.join "q_n0" ⟨0⟩ (MirNodeRef.base 0) (MirNodeRef.base 1) JoinType.Inner

/-- Query graph with a self-join edge on `A`, used by a witness. -/
def wQgSelf : QueryGraph :=
  { edges := [(("A", "A"), QueryGraphEdge.Join [⟨0⟩])],
    join_order := [⟨"A", "A", 0⟩] }

/-- Query graph whose only edge is a group-by edge, used by a witness. -/
def wQgGB : QueryGraph :=
  { edges := [(("A", "B"), QueryGraphEdge.GroupBy 0)],
    join_order := [⟨"A", "B", 0⟩] }

/-! ### Helper lemmas -/

lemma cons_dropLast_perm {α : Type} {l : List α} {x : α} (h : l.getLast? = some x) :
    List.Perm (x :: l.dropLast) l := by
  have h2 : l.dropLast ++ [x] = l :=
    List.dropLast_append_getLast? x (Option.mem_def.mpr h)
  have h3 := List.perm_append_singleton x l.dropLast
  have h4 : List.Perm (l.dropLast ++ [x]) l := by rw [h2]
  exact h3.symm.trans h4

lemma swapRemove_cons_cons_succ {α : Type} (a b : α) (t : List α) (i : Nat) :
    swapRemove (a :: b :: t) (i + 1) = a :: swapRemove (b :: t) i := by
  unfold swapRemove
  rw [List.getLast?_cons_cons]
  cases hl : (b :: t).getLast? with
  | none => simp at hl
  | some last =>
    have hne : (b :: t).set i last ≠ [] := by
      intro hc
      have := congrArg List.length hc
      simp at this
    simp only [List.set_cons_succ]
    rw [List.dropLast_cons_of_ne_nil hne]

lemma swapRemove_perm {α : Type} :
    ∀ (l : List α) (i : Nat) (c : α), l[i]? = some c →
      List.Perm (c :: swapRemove l i) l
  | [], _, _, h => by simp at h
  | [a], 0, c, h => by
    simp at h
    subst h
    simp [swapRemove]
  | [a], (_+1), _, h => by simp at h
  | (a :: b :: t), 0, c, h => by
    simp at h
    subst h
    cases hl : (b :: t).getLast? with
    | none => simp at hl
    | some last =>
      have he : swapRemove (a :: b :: t) 0 = last :: (b :: t).dropLast := by
        unfold swapRemove
        rw [List.getLast?_cons_cons, hl]
        simp
      rw [he]
      exact List.Perm.cons a (cons_dropLast_perm hl)
  | (a :: b :: t), (i+1), c, h => by
    simp only [List.getElem?_cons_succ] at h
    have ih := swapRemove_perm (b :: t) i c h
    rw [swapRemove_cons_cons_succ]
    exact (List.Perm.swap a c _).trans (ih.cons a)

lemma removeChainWith_some {p : JoinChain → Bool} {l : List JoinChain}
    {c : JoinChain} {l' : List JoinChain}
    (h : removeChainWith p l = some (c, l')) :
    p c = true ∧ List.Perm (c :: l') l := by
  unfold removeChainWith at h
  split at h
  · cases h
  · next i hf =>
    split at h
    · cases h
    · next c0 hg =>
      have hh : c0 = c ∧ swapRemove l i = l' := by simpa using h
      obtain ⟨h1, h2⟩ := hh
      rw [← h1, ← h2]
      obtain ⟨hlt, hp, _⟩ := List.findIdx?_eq_some_iff_getElem.mp hf
      have he : l[i] = c0 := (List.getElem?_eq_some.mp hg).choose_spec
      constructor
      · rw [← he]; exact hp
      · exact swapRemove_perm l i c0 hg

lemma removeChainWith_none {p : JoinChain → Bool} {l : List JoinChain}
    (h : removeChainWith p l = none) :
    ∀ c ∈ l, p c = false := by
  unfold removeChainWith at h
  split at h
  · next hf => exact fun c hc => List.findIdx?_eq_none_iff.mp hf c hc
  · next i hf =>
    split at h
    · next hg =>
      obtain ⟨hlt, _, _⟩ := List.findIdx?_eq_some_iff_getElem.mp hf
      rw [List.getElem?_eq_getElem hlt] at hg
      cases hg
    · cases h


lemma has_table_iff {c : JoinChain} {t : String} :
    c.has_table t = true ↔ t ∈ c.tables := by
  simp [JoinChain.has_table]

lemma chainFor_ok {t : String} {l : List JoinChain}
    {m : String → Option MirNodeRef} {c : JoinChain} {l' : List JoinChain}
    (h : chainFor t l m = Except.ok (c, l')) :
    t ∈ c.tables ∧
      (List.Perm (c :: l') l ∨
        (l' = l ∧ c.tables = {t} ∧ ∀ d ∈ l, t ∉ d.tables)) := by
  unfold chainFor at h
  split at h
  · next r hr =>
    have hrc : r = (c, l') := by simpa using h
    subst hrc
    obtain ⟨hp, hperm⟩ := removeChainWith_some hr
    exact ⟨has_table_iff.mp hp, Or.inl hperm⟩
  · next hr =>
    split at h
    · next n hn =>
      have hcl : ({ tables := {t}, last_node := n } : JoinChain) = c ∧ l = l' := by
        simpa using h
      obtain ⟨h1, h2⟩ := hcl
      subst h2
      rw [← h1]
      refine ⟨by simp, Or.inr ⟨rfl, rfl, ?_⟩⟩
      intro d hd
      have hfd := removeChainWith_none hr d hd
      simp [JoinChain.has_table] at hfd
      exact hfd
    · cases h

lemma chainFor_error {t : String} {l : List JoinChain} {m : String → Option MirNodeRef}
    (h1 : ∀ d ∈ l, t ∉ d.tables) (h2 : m t = none) :
    chainFor t l m = Except.error PlanError.missingRelation := by
  unfold chainFor
  have hf : l.findIdx? (fun c => c.has_table t) = none :=
    List.findIdx?_eq_none_iff.mpr (fun d hd => by
      simp [JoinChain.has_table]
      exact h1 d hd)
  have hr : removeChainWith (fun c => c.has_table t) l = none := by
    unfold removeChainWith
    rw [hf]
  rw [hr, h2]

lemma chainFor_error_eq {t : String} {l : List JoinChain}
    {m : String → Option MirNodeRef} {e : PlanError}
    (h : chainFor t l m = Except.error e) :
    e = PlanError.missingRelation ∧ (∀ d ∈ l, t ∉ d.tables) ∧ m t = none := by
  unfold chainFor at h
  split at h
  · cases h
  · next hr =>
    split at h
    · cases h
    · next hn =>
      refine ⟨by simpa using h.symm, ?_, hn⟩
      intro d hd
      have hfd := removeChainWith_none hr d hd
      simp [JoinChain.has_table] at hfd
      exact hfd


/-- Full case analysis of a successful `pick_join_chains`. -/
lemma pick_ok {src dst : String} {chains : List JoinChain}
    {m : String → Option MirNodeRef} {res : PickResult}
    (h : pick_join_chains src dst chains m = Except.ok res) :
    src ∈ res.left.tables ∧
    ∃ mid : List JoinChain,
      (List.Perm (res.left :: mid) chains ∨
        (mid = chains ∧ res.left.tables = {src} ∧ ∀ d ∈ chains, src ∉ d.tables)) ∧
      ((res.second = none ∧ res.chains = mid ∧ dst ∈ res.left.tables) ∨
       (∃ rc : JoinChain, res.second = some rc ∧ dst ∉ res.left.tables ∧ dst ∈ rc.tables ∧
         (List.Perm (rc :: res.chains) mid ∨
           (res.chains = mid ∧ rc.tables = {dst} ∧ ∀ d ∈ mid, dst ∉ d.tables)))) := by
  unfold pick_join_chains at h
  split at h
  · cases h
  · next left_chain chains1 hcf =>
    have hl := chainFor_ok hcf
    split at h
    · next hdst =>
      have hres : res = { left := left_chain, second := none, chains := chains1 } := by
        simpa using h.symm
      subst hres
      exact ⟨hl.1, chains1, hl.2, Or.inl ⟨rfl, rfl, has_table_iff.mp hdst⟩⟩
    · next hdst =>
      split at h
      · cases h
      · next right_chain chains2 hcf2 =>
        have hr := chainFor_ok hcf2
        have hres : res =
            { left := left_chain, second := some right_chain, chains := chains2 } := by
          simpa using h.symm
        subst hres
        refine ⟨hl.1, chains1, hl.2, Or.inr ⟨right_chain, rfl, ?_, hr.1, hr.2⟩⟩
        simp [JoinChain.has_table] at hdst
        exact hdst

/-- A failing `pick_join_chains` fails with the missing-relation error. -/
lemma pick_error {src dst : String} {chains : List JoinChain}
    {m : String → Option MirNodeRef} {e : PlanError}
    (h : pick_join_chains src dst chains m = Except.error e) :
    e = PlanError.missingRelation := by
  unfold pick_join_chains at h
  split at h
  · next e0 hcf =>
    have he : e0 = e := by simpa using h
    subst he
    exact (chainFor_error_eq hcf).1
  · next left_chain chains1 hcf =>
    split at h
    · cases h
    · split at h
      · next e0 hcf2 =>
        have he : e0 = e := by simpa using h
        subst he
        exact (chainFor_error_eq hcf2).1
      · cases h


/-- Case analysis of a successful `make_joins_step`. -/
lemma step_ok {name : String} {qg : QueryGraph} {m : String → Option MirNodeRef}
    {st st' : MakeJoinsState} {jref : JoinRef}
    (h : make_joins_step name qg m st jref = Except.ok st') :
    ∃ jt jp pick, from_join_ref jref qg = Except.ok (jt, jp) ∧
      pick_join_chains jref.src jref.dst st.join_chains m = Except.ok pick ∧
      ((∃ rc, pick.second = some rc ∧
          st'.join_nodes = st.join_nodes ++
            [make_join_node (joinNodeName name st.node_count) jp
              pick.left.last_node rc.last_node jt] ∧
          st'.join_chains = pick.chains ++
            [pick.left.merge_chain rc (make_join_node (joinNodeName name st.node_count) jp
              pick.left.last_node rc.last_node jt)] ∧
          st'.node_count = st.node_count + 1) ∨
        (pick.second = none ∧ st'.join_nodes = st.join_nodes ∧
          st'.join_chains = pick.chains ++ [pick.left] ∧
          st'.node_count = st.node_count)) := by
  unfold make_joins_step at h
  split at h
  · cases h
  · next jt jp hfr =>
    split at h
    · cases h
    · next pick hpk =>
      refine ⟨jt, jp, pick, hfr, hpk, ?_⟩
      split at h
      · next rc hrc =>
        have hst := h
        simp only [Except.ok.injEq] at hst
        rw [← hst]
        exact Or.inl ⟨rc, hrc, rfl, rfl, rfl⟩
      · next hrc =>
        have hst := h
        simp only [Except.ok.injEq] at hst
        rw [← hst]
        exact Or.inr ⟨hrc, rfl, rfl, rfl⟩


/-- Two live chains sharing a table are equal when the active set is
pairwise disjoint. -/
lemma eq_of_shared_table {chains : List JoinChain} (hd : ChainsDisjoint chains)
    {c1 c2 : JoinChain} {b : String} (h1 : c1 ∈ chains) (h2 : c2 ∈ chains)
    (hb1 : b ∈ c1.tables) (hb2 : b ∈ c2.tables) : c1 = c2 := by
  induction chains with
  | nil => cases h1
  | cons a t ih =>
    obtain ⟨ha, ht⟩ := List.pairwise_cons.mp hd
    cases h1 with
    | head =>
      cases h2 with
      | head => rfl
      | tail _ h2t => exact absurd hb2 (Finset.disjoint_left.mp (ha c2 h2t) hb1)
    | tail _ h1t =>
      cases h2 with
      | head => exact absurd hb1 (Finset.disjoint_left.mp (ha c1 h1t) hb2)
      | tail _ h2t => exact ih ht h1t h2t

/-- When some chain satisfies `p`, the extraction succeeds and returns
a satisfying chain plus a permutation of the rest. -/
lemma removeChainWith_found {p : JoinChain → Bool} {l : List JoinChain}
    {c : JoinChain} (hc : c ∈ l) (hpc : p c = true) :
    ∃ c0 mid, removeChainWith p l = some (c0, mid) ∧ p c0 = true ∧
      List.Perm (c0 :: mid) l := by
  cases hr : removeChainWith p l with
  | none => exact absurd (removeChainWith_none hr c hc) (by simp [hpc])
  | some r =>
    obtain ⟨c0, mid⟩ := r
    obtain ⟨hp0, hperm⟩ := removeChainWith_some hr
    exact ⟨c0, mid, rfl, hp0, hperm⟩

/-- After a successful step, some live chain contains both endpoints of
the processed reference. -/
lemma step_has_pair {name : String} {qg : QueryGraph} {m : String → Option MirNodeRef}
    {st st' : MakeJoinsState} {jref : JoinRef}
    (h : make_joins_step name qg m st jref = Except.ok st') :
    ∃ c ∈ st'.join_chains, jref.src ∈ c.tables ∧ jref.dst ∈ c.tables := by
  obtain ⟨jt, jp, pick, hfr, hpk, hcase⟩ := step_ok h
  obtain ⟨hsrc, mid, hleft, hsecond⟩ := pick_ok hpk
  rcases hcase with ⟨rc, hrc, hn, hc, hcnt⟩ | ⟨hrc, hn, hc, hcnt⟩
  · rcases hsecond with ⟨hnone, _, _⟩ | ⟨rc2, hsome, hnotin, hdst, _⟩
    · rw [hrc] at hnone; cases hnone
    · have hrc2 : rc = rc2 := by rw [hrc] at hsome; simpa using hsome
      subst hrc2
      refine ⟨pick.left.merge_chain rc (make_join_node (joinNodeName name st.node_count) jp
        pick.left.last_node rc.last_node jt), ?_, ?_, ?_⟩
      · rw [hc]; exact List.mem_append_right _ (List.mem_singleton_self _)
      · simp only [JoinChain.merge_chain, Finset.mem_union]
        exact Or.inl hsrc
      · simp only [JoinChain.merge_chain, Finset.mem_union]
        exact Or.inr hdst
  · rcases hsecond with ⟨hnone, hmid, hdst⟩ | ⟨rc2, hsome, _⟩
    · refine ⟨pick.left, ?_, hsrc, hdst⟩
      rw [hc]; exact List.mem_append_right _ (List.mem_singleton_self _)
    · rw [hrc] at hsome; cases hsome

/-- When the edge resolves and one live chain already contains both
endpoints, the step is an already-connected no-op: it succeeds, builds
no node, leaves the counter alone and permutes the active set. -/
lemma step_already_connected {name : String} {qg : QueryGraph}
    {m : String → Option MirNodeRef} {st : MakeJoinsState} {jref : JoinRef}
    {jt : JoinType} {jp : ConditionTree}
    (hfr : from_join_ref jref qg = Except.ok (jt, jp))
    (hdisj : ChainsDisjoint st.join_chains) {c : JoinChain}
    (hc : c ∈ st.join_chains) (hcs : jref.src ∈ c.tables) (hcd : jref.dst ∈ c.tables) :
    ∃ st'', make_joins_step name qg m st jref = Except.ok st'' ∧
      st''.join_nodes = st.join_nodes ∧ st''.node_count = st.node_count ∧
      List.Perm st''.join_chains st.join_chains := by
  obtain ⟨c0, mid, hrm, hp0, hperm⟩ :=
    removeChainWith_found (p := fun d => d.has_table jref.src) hc (has_table_iff.mpr hcs)
  have hc0 : c0 ∈ st.join_chains := hperm.mem_iff.mp (List.mem_cons_self _ _)
  have hceq : c0 = c := eq_of_shared_table hdisj hc0 hc (has_table_iff.mp hp0) hcs
  have hcf : chainFor jref.src st.join_chains m = Except.ok (c0, mid) := by
    unfold chainFor
    rw [hrm]
  have hht : c0.has_table jref.dst = true := has_table_iff.mpr (by rw [hceq]; exact hcd)
  have hpk : pick_join_chains jref.src jref.dst st.join_chains m =
      Except.ok { left := c0, second := none, chains := mid } := by
    unfold pick_join_chains
    rw [hcf]
    simp [hht]
  refine ⟨{ st with join_chains := mid ++ [c0] }, ?_, rfl, rfl, ?_⟩
  · unfold make_joins_step
    rw [hfr, hpk]
  · exact (List.perm_append_singleton c0 mid).trans hperm


lemma merge_chain_tables (a b : JoinChain) (n : MirNodeRef) :
    (a.merge_chain b n).tables = a.tables ∪ b.tables := rfl

lemma merge_chain_last (a b : JoinChain) (n : MirNodeRef) :
    (a.merge_chain b n).last_node = n := rfl

lemma chainsDisjoint_perm {l1 l2 : List JoinChain} (hp : List.Perm l1 l2) :
    ChainsDisjoint l1 ↔ ChainsDisjoint l2 :=
  List.Perm.pairwise_iff (fun h => Disjoint.symm h) hp

/-- An extracted-or-synthesized chain is disjoint from the rest. -/
lemma extracted_pairwise {chains mid : List JoinChain} {c : JoinChain} {t : String}
    (hdisj : ChainsDisjoint chains)
    (hx : List.Perm (c :: mid) chains ∨
      (mid = chains ∧ c.tables = {t} ∧ ∀ d ∈ chains, t ∉ d.tables)) :
    ChainsDisjoint (c :: mid) := by
  rcases hx with hperm | ⟨hmid, hsing, hfresh⟩
  · exact (chainsDisjoint_perm hperm).mpr hdisj
  · subst hmid
    refine List.pairwise_cons.mpr ⟨?_, hdisj⟩
    intro d hd
    rw [hsing]
    exact Finset.disjoint_singleton_left.mpr (hfresh d hd)

lemma extracted_mem {chains mid : List JoinChain} {c : JoinChain} {t : String}
    (hx : List.Perm (c :: mid) chains ∨
      (mid = chains ∧ c.tables = {t} ∧ ∀ d ∈ chains, t ∉ d.tables)) :
    ∀ d ∈ mid, d ∈ chains := by
  rcases hx with hperm | ⟨hmid, _, _⟩
  · exact fun d hd => hperm.mem_iff.mp (List.mem_cons_of_mem _ hd)
  · subst hmid
    exact fun d hd => hd

/-- A successful step preserves the no-two-live-chains-share-a-relation
invariant. -/
lemma step_disjoint {name : String} {qg : QueryGraph} {m : String → Option MirNodeRef}
    {st st' : MakeJoinsState} {jref : JoinRef}
    (hdisj : ChainsDisjoint st.join_chains)
    (h : make_joins_step name qg m st jref = Except.ok st') :
    ChainsDisjoint st'.join_chains := by
  obtain ⟨jt, jp, pick, hfr, hpk, hcase⟩ := step_ok h
  obtain ⟨hsrc, mid, hleft, hsecond⟩ := pick_ok hpk
  have hlp : ChainsDisjoint (pick.left :: mid) := extracted_pairwise hdisj hleft
  obtain ⟨hlm, hmid⟩ := List.pairwise_cons.mp hlp
  rcases hcase with ⟨rc, hrc, hn, hc, hcnt⟩ | ⟨hrc, hn, hc, hcnt⟩
  · rcases hsecond with ⟨hnone, _, _⟩ | ⟨rc2, hsome, hnotin, hdst, hright⟩
    · rw [hrc] at hnone; cases hnone
    · have hrc2 : rc = rc2 := by rw [hrc] at hsome; simpa using hsome
      subst hrc2
      have hrp : ChainsDisjoint (rc :: pick.chains) := extracted_pairwise hmid hright
      obtain ⟨hrm, hchains2⟩ := List.pairwise_cons.mp hrp
      have hsub : ∀ d ∈ pick.chains, d ∈ mid := extracted_mem hright
      rw [hc]
      have hgoal : ChainsDisjoint
          (pick.left.merge_chain rc (make_join_node (joinNodeName name st.node_count) jp
            pick.left.last_node rc.last_node jt) :: pick.chains) := by
        refine List.pairwise_cons.mpr ⟨?_, hchains2⟩
        intro d hd
        rw [merge_chain_tables]
        exact Finset.disjoint_union_left.mpr ⟨hlm d (hsub d hd), hrm d hd⟩
      exact (chainsDisjoint_perm (List.perm_append_singleton _ _)).mpr hgoal
  · rcases hsecond with ⟨hnone, hmid2, hdst⟩ | ⟨rc2, hsome, _⟩
    · subst hmid2
      rw [hc]
      exact (chainsDisjoint_perm (List.perm_append_singleton _ _)).mpr hlp
    · rw [hrc] at hsome; cases hsome


/-- Successful fold on a cons decomposes into a successful head step
and a successful fold of the tail. -/
lemma foldlM_ok_cons {f : MakeJoinsState → JoinRef → Except PlanError MakeJoinsState}
    {r : JoinRef} {refs : List JoinRef} {st st' : MakeJoinsState}
    (h : (r :: refs).foldlM f st = Except.ok st') :
    ∃ st1, f st r = Except.ok st1 ∧ refs.foldlM f st1 = Except.ok st' := by
  rw [List.foldlM_cons] at h
  cases hstep : f st r with
  | error e => rw [hstep] at h; cases h
  | ok st1 =>
    rw [hstep] at h
    exact ⟨st1, rfl, h⟩

/-- A step either creates no node and keeps the counter, or creates
exactly one node named with the current counter value and increments
the counter once. -/
lemma step_nodes {name : String} {qg : QueryGraph} {m : String → Option MirNodeRef}
    {st st' : MakeJoinsState} {jref : JoinRef}
    (h : make_joins_step name qg m st jref = Except.ok st') :
    (st'.join_nodes = st.join_nodes ∧ st'.node_count = st.node_count) ∨
    (∃ jn, nodeName jn = some (joinNodeName name st.node_count) ∧
      st'.join_nodes = st.join_nodes ++ [jn] ∧ st'.node_count = st.node_count + 1) := by
  obtain ⟨jt, jp, pick, hfr, hpk, hcase⟩ := step_ok h
  rcases hcase with ⟨rc, hrc, hn, hc, hcnt⟩ | ⟨hrc, hn, hc, hcnt⟩
  · exact Or.inr ⟨make_join_node (joinNodeName name st.node_count) jp
      pick.left.last_node rc.last_node jt, rfl, hn, hcnt⟩
  · exact Or.inl ⟨hn, hcnt⟩

/-- Fold invariant for node naming: the counter tracks the number of
created nodes and the k-th node carries name counter `n0 + k`. -/
lemma fold_names {name : String} {qg : QueryGraph} {m : String → Option MirNodeRef}
    {n0 : Nat} :
    ∀ (refs : List JoinRef) (st st' : MakeJoinsState),
    refs.foldlM (make_joins_step name qg m) st = Except.ok st' →
    st.node_count = n0 + st.join_nodes.length →
    (∀ k (hk : k < st.join_nodes.length),
      nodeName (st.join_nodes.get ⟨k, hk⟩) = some (joinNodeName name (n0 + k))) →
    st'.node_count = n0 + st'.join_nodes.length ∧
    (∀ k (hk : k < st'.join_nodes.length),
      nodeName (st'.join_nodes.get ⟨k, hk⟩) = some (joinNodeName name (n0 + k)))
  | [], st, st', h, h1, h2 => by
    have hst : st = st' := by simpa [pure, Except.pure] using h
    subst hst
    exact ⟨h1, h2⟩
  | (r :: refs), st, st', h, h1, h2 => by
    obtain ⟨st1, hstep, hrest⟩ := foldlM_ok_cons h
    have hmid : st1.node_count = n0 + st1.join_nodes.length ∧
        (∀ k (hk : k < st1.join_nodes.length),
          nodeName (st1.join_nodes.get ⟨k, hk⟩) = some (joinNodeName name (n0 + k))) := by
      rcases step_nodes hstep with ⟨hn, hc⟩ | ⟨jn, hname, hn, hc⟩
      · rw [hn, hc]
        exact ⟨h1, h2⟩
      · constructor
        · rw [hc, hn, h1]
          simp only [List.length_append, List.length_singleton]
          omega
        · intro k hk
          have hk' : k < st.join_nodes.length + 1 := by
            rw [hn] at hk
            simpa using hk
          rcases Nat.lt_or_ge k st.join_nodes.length with hlt | hge
          · have : (st1.join_nodes.get ⟨k, hk⟩) = st.join_nodes.get ⟨k, hlt⟩ := by
              have := @List.getElem_append_left _ k st.join_nodes [jn] hlt
                (by simpa using hk')
              simpa [hn] using this
            rw [this]
            exact h2 k hlt
          · have hkeq : k = st.join_nodes.length := by omega
            subst hkeq
            have : st1.join_nodes.get ⟨st.join_nodes.length, hk⟩ = jn := by
              simp [hn]
            rw [this, hname, h1]
    exact fold_names refs st1 st' hrest hmid.1 hmid.2


lemma charVal_digitChar {d : Nat} (h : d < 10) : charVal (Nat.digitChar d) = d := by
  interval_cases d <;> decide

lemma toDigitsCore_append : ∀ (b f n : Nat) (ds : List Char),
    Nat.toDigitsCore b f n ds = Nat.toDigitsCore b f n [] ++ ds
  | _, 0, _, _ => rfl
  | b, (f+1), n, ds => by
    by_cases h : n / b = 0
    · simp [Nat.toDigitsCore, h]
    · simp only [Nat.toDigitsCore, h, if_neg h, if_false]
      rw [toDigitsCore_append b f (n / b) (Nat.digitChar (n % b) :: ds),
          toDigitsCore_append b f (n / b) [Nat.digitChar (n % b)]]
      simp

lemma toDigitsCore_fuel (n : Nat) : ∀ (f g : Nat), n < f → n < g →
    Nat.toDigitsCore 10 f n [] = Nat.toDigitsCore 10 g n [] := by
  induction n using Nat.strong_induction_on with
  | _ n ih =>
    intro f g hf hg
    match f, g with
    | f+1, g+1 =>
      by_cases h : n / 10 = 0
      · simp [Nat.toDigitsCore, h]
      · simp only [Nat.toDigitsCore, h, if_neg h, if_false]
        have hne : n ≠ 0 := by
          intro hz
          subst hz
          simp at h
        have hlt : n / 10 < n := Nat.div_lt_self (Nat.pos_of_ne_zero hne) (by decide)
        rw [toDigitsCore_append 10 f (n / 10) [Nat.digitChar (n % 10)],
            toDigitsCore_append 10 g (n / 10) [Nat.digitChar (n % 10)]]
        rw [ih (n / 10) hlt f g (by omega) (by omega)]

lemma digitsVal_concat (xs : List Char) (c : Char) :
    digitsVal (xs ++ [c]) = 10 * digitsVal xs + charVal c := by
  simp [digitsVal, List.foldl_append]

lemma digitsVal_toDigits (n : Nat) : digitsVal (Nat.toDigits 10 n) = n := by
  induction n using Nat.strong_induction_on with
  | _ n ih =>
    show digitsVal (Nat.toDigitsCore 10 (n + 1) n []) = n
    by_cases h : n / 10 = 0
    · have hn10 : n < 10 := by omega
      have hmod : n % 10 = n := Nat.mod_eq_of_lt hn10
      simp [Nat.toDigitsCore, h, digitsVal, hmod, charVal_digitChar hn10]
    · simp only [Nat.toDigitsCore, h, if_neg h, if_false]
      have hne : n ≠ 0 := by
        intro hz
        subst hz
        simp at h
      have hlt : n / 10 < n := Nat.div_lt_self (Nat.pos_of_ne_zero hne) (by decide)
      rw [toDigitsCore_append 10 n (n / 10) [Nat.digitChar (n % 10)]]
      rw [toDigitsCore_fuel (n / 10) n (n / 10 + 1) (by omega) (by omega)]
      rw [digitsVal_concat]
      have hih : digitsVal (Nat.toDigitsCore 10 (n / 10 + 1) (n / 10) []) = n / 10 :=
        ih (n / 10) hlt
      rw [hih, charVal_digitChar (Nat.mod_lt n (by decide))]
      omega

lemma toDigits_injective {m n : Nat} (h : Nat.toDigits 10 m = Nat.toDigits 10 n) :
    m = n := by
  have h2 := congrArg digitsVal h
  rwa [digitsVal_toDigits, digitsVal_toDigits] at h2

lemma nat_repr_injective {m n : Nat} (h : Nat.repr m = Nat.repr n) : m = n := by
  have h2 : (Nat.repr m).data = (Nat.repr n).data := congrArg String.data h
  exact toDigits_injective h2

lemma string_data_inj {s t : String} (h : s.data = t.data) : s = t := by
  cases s
  cases t
  exact congrArg String.mk h

lemma joinNodeName_inj {name : String} {a b : Nat}
    (h : joinNodeName name a = joinNodeName name b) : a = b := by
  unfold joinNodeName at h
  have hd := congrArg String.data h
  simp only [String.data_append] at hd
  have hr : (Nat.repr a).data = (Nat.repr b).data := by
    exact List.append_cancel_left hd
  exact nat_repr_injective (string_data_inj hr)


lemma refRels_cons {r : JoinRef} {t : List JoinRef} :
    refRels (r :: t) = insert r.src (insert r.dst (refRels t)) := rfl

lemma mem_refRels {P : List JoinRef} {x : String} :
    x ∈ refRels P ↔ ∃ r ∈ P, r.src = x ∨ r.dst = x := by
  induction P with
  | nil => simp [refRels]
  | cons r t ih =>
    simp only [refRels_cons, Finset.mem_insert, ih, List.mem_cons]
    constructor
    · rintro (rfl | rfl | ⟨r2, hr2, hc⟩)
      · exact ⟨r, Or.inl rfl, Or.inl rfl⟩
      · exact ⟨r, Or.inl rfl, Or.inr rfl⟩
      · exact ⟨r2, Or.inr hr2, hc⟩
    · rintro ⟨r2, (rfl | hr2), hc⟩
      · rcases hc with rfl | rfl
        · exact Or.inl rfl
        · exact Or.inr (Or.inl rfl)
      · exact Or.inr (Or.inr ⟨r2, hr2, hc⟩)

lemma adjRefs_symm {P : List JoinRef} {a b : String} (h : adjRefs P a b) :
    adjRefs P b a := by
  rcases h with ⟨r, hr, hc⟩
  exact ⟨r, hr, hc.symm⟩

lemma reachRefs_symm {P : List JoinRef} {a b : String} (h : ReachRefs P a b) :
    ReachRefs P b a :=
  Relation.ReflTransGen.symmetric (fun _ _ hx => adjRefs_symm hx) h

lemma reachRefs_single {P : List JoinRef} {r : JoinRef} (hr : r ∈ P) :
    ReachRefs P r.src r.dst :=
  Relation.ReflTransGen.single ⟨r, hr, Or.inl ⟨rfl, rfl⟩⟩

lemma reachRefs_mono {P Q : List JoinRef} {a b : String} (h : ReachRefs P a b) :
    ReachRefs (P ++ Q) a b := by
  refine Relation.ReflTransGen.mono ?_ h
  intro x y hxy
  rcases hxy with ⟨r, hr, hc⟩
  exact ⟨r, List.mem_append_left _ hr, hc⟩

lemma adjRefs_append_single {P : List JoinRef} {r : JoinRef} {a b : String}
    (h : adjRefs (P ++ [r]) a b) :
    adjRefs P a b ∨ (r.src = a ∧ r.dst = b) ∨ (r.src = b ∧ r.dst = a) := by
  rcases h with ⟨r2, hr2, hc⟩
  rcases List.mem_append.mp hr2 with hl | hr1
  · exact Or.inl ⟨r2, hl, hc⟩
  · have : r2 = r := by simpa using hr1
    subst this
    exact Or.inr hc

lemma adjRefs_mem {P : List JoinRef} {a b : String} (h : adjRefs P a b) :
    a ∈ refRels P ∧ b ∈ refRels P := by
  rcases h with ⟨r, hr, hc⟩
  rcases hc with ⟨hs, hd⟩ | ⟨hs, hd⟩
  · exact ⟨mem_refRels.mpr ⟨r, hr, Or.inl hs⟩, mem_refRels.mpr ⟨r, hr, Or.inr hd⟩⟩
  · exact ⟨mem_refRels.mpr ⟨r, hr, Or.inr hd⟩, mem_refRels.mpr ⟨r, hr, Or.inl hs⟩⟩

/-- Appending a reference between two already-connected endpoints does
not change reachability. -/
lemma reach_append_elim {P : List JoinRef} {r : JoinRef}
    (hconn : ReachRefs P r.src r.dst) {a b : String}
    (h : ReachRefs (P ++ [r]) a b) : ReachRefs P a b := by
  induction h with
  | refl => exact Relation.ReflTransGen.refl
  | tail _ hbc ih =>
    rcases adjRefs_append_single hbc with hadj | ⟨hs, hd⟩ | ⟨hs, hd⟩
    · exact ih.tail hadj
    · exact ih.trans (hs ▸ hd ▸ hconn)
    · exact ih.trans (reachRefs_symm (hs ▸ hd ▸ hconn))

lemma mem_unionTables {chains : List JoinChain} {x : String} :
    x ∈ unionTables chains ↔ ∃ c ∈ chains, x ∈ c.tables := by
  induction chains with
  | nil => simp [unionTables]
  | cons c t ih =>
    simp only [unionTables, List.foldr_cons, Finset.mem_union, List.mem_cons]
    constructor
    · rintro (hx | hx)
      · exact ⟨c, Or.inl rfl, hx⟩
      · obtain ⟨d, hd, hxd⟩ := ih.mp hx
        exact ⟨d, Or.inr hd, hxd⟩
    · rintro ⟨d, (rfl | hd), hxd⟩
      · exact Or.inl hxd
      · exact Or.inr (ih.mpr ⟨d, hd, hxd⟩)

lemma inSameChain_trans {chains : List JoinChain} (hdisj : ChainsDisjoint chains)
    {a b c : String} (h1 : InSameChain chains a b) (h2 : InSameChain chains b c) :
    InSameChain chains a c := by
  obtain ⟨c1, hc1, ha, hb⟩ := h1
  obtain ⟨c2, hc2, hb2, hc⟩ := h2
  have heq : c1 = c2 := eq_of_shared_table hdisj hc1 hc2 hb hb2
  subst heq
  exact ⟨c1, hc1, ha, hc⟩

/-- Components absorb reachability: if chains are disjoint, cover the
referenced relations and contain every edge, then any reachable pair
from a referenced vertex shares a chain. -/
lemma reach_in_same_chain {P : List JoinRef} {chains : List JoinChain}
    (hdisj : ChainsDisjoint chains)
    (hcover : ∀ x, x ∈ refRels P → ∃ c ∈ chains, x ∈ c.tables)
    (hedge : ∀ x y, adjRefs P x y → InSameChain chains x y)
    {a b : String} (ha : a ∈ refRels P) (hr : ReachRefs P a b) :
    InSameChain chains a b := by
  induction hr with
  | refl =>
    obtain ⟨c, hc, hac⟩ := hcover a ha
    exact ⟨c, hc, hac, hac⟩
  | tail _ hbc ih =>
    exact inSameChain_trans hdisj ih (hedge _ _ hbc)


lemma mem_refRels_append_single {P : List JoinRef} {r : JoinRef} {x : String} :
    x ∈ refRels (P ++ [r]) ↔ x ∈ refRels P ∨ r.src = x ∨ r.dst = x := by
  rw [mem_refRels, mem_refRels]
  constructor
  · rintro ⟨r2, hr2, hc⟩
    rcases List.mem_append.mp hr2 with hl | hr1
    · exact Or.inl ⟨r2, hl, hc⟩
    · have hreq : r2 = r := by simpa using hr1
      subst hreq
      exact Or.inr hc
  · rintro (⟨r2, hr2, hc⟩ | hc)
    · exact ⟨r2, List.mem_append_left _ hr2, hc⟩
    · exact ⟨r, List.mem_append_right _ (List.mem_singleton_self _), hc⟩

lemma mem_append_singleton {c' X : JoinChain} {rest : List JoinChain}
    (h : c' ∈ rest ++ [X]) : c' ∈ rest ∨ c' = X := by
  rcases List.mem_append.mp h with h1 | h1
  · exact Or.inl h1
  · exact Or.inr (by simpa using h1)

/-- A successful step turns the components of `P` into the components
of `P ++ [jref]`. -/
lemma step_chainsInv {name : String} {qg : QueryGraph} {m : String → Option MirNodeRef}
    {st st' : MakeJoinsState} {jref : JoinRef} {P : List JoinRef}
    (hinv : ChainsInv P st.join_chains)
    (h : make_joins_step name qg m st jref = Except.ok st') :
    ChainsInv (P ++ [jref]) st'.join_chains := by
  obtain ⟨jt, jp, pick, hfr, hpk, hcase⟩ := step_ok h
  obtain ⟨hsrc, mid, hleft, hsecond⟩ := pick_ok hpk
  have hdisj' : ChainsDisjoint st'.join_chains := step_disjoint hinv.disj h
  have hstep1 : ∀ c ∈ st.join_chains, c = pick.left ∨ c ∈ mid := by
    rcases hleft with hperm | ⟨hm, _, _⟩
    · intro c hcm
      exact List.mem_cons.mp (hperm.mem_iff.mpr hcm)
    · intro c hcm
      right
      rw [hm]
      exact hcm
  have hleft_reach : ∀ x ∈ pick.left.tables, ReachRefs (P ++ [jref]) x jref.src := by
    rcases hleft with hperm | ⟨_, hsing, _⟩
    · intro x hx
      have hlc : pick.left ∈ st.join_chains := hperm.mem_iff.mp (List.mem_cons_self _ _)
      exact reachRefs_mono (hinv.same_reach x jref.src ⟨pick.left, hlc, hx, hsrc⟩)
    · intro x hx
      rw [hsing] at hx
      have hxe : x = jref.src := by simpa using hx
      subst hxe
      exact Relation.ReflTransGen.refl
  have hedge_sd : ReachRefs (P ++ [jref]) jref.src jref.dst :=
    reachRefs_single (List.mem_append_right _ (List.mem_singleton_self _))
  rcases hcase with ⟨rc, hrc, hn, hc, hcnt⟩ | ⟨hrc, hn, hc, hcnt⟩
  · -- merge case
    rcases hsecond with ⟨hnone, _, _⟩ | ⟨rc2, hsome, hnotin, hdstrc, hright⟩
    · rw [hrc] at hnone; cases hnone
    have hrceq : rc = rc2 := by rw [hrc] at hsome; simpa using hsome
    subst hrceq
    set jn := make_join_node (joinNodeName name st.node_count) jp
      pick.left.last_node rc.last_node jt with hjn
    set X := pick.left.merge_chain rc jn with hX
    have hXtab : X.tables = pick.left.tables ∪ rc.tables := rfl
    have hXmem : X ∈ st'.join_chains := by
      rw [hc]
      exact List.mem_append_right _ (List.mem_singleton_self _)
    have hXsrc : jref.src ∈ X.tables := by
      rw [hXtab]
      exact Finset.mem_union_left _ hsrc
    have hXdst : jref.dst ∈ X.tables := by
      rw [hXtab]
      exact Finset.mem_union_right _ hdstrc
    have hstep2 : ∀ c ∈ mid, c = rc ∨ c ∈ pick.chains := by
      rcases hright with hperm2 | ⟨hpc, _, _⟩
      · intro c hcm
        exact List.mem_cons.mp (hperm2.mem_iff.mpr hcm)
      · intro c hcm
        right
        rw [hpc]
        exact hcm
    have hpc_mid : ∀ c ∈ pick.chains, c ∈ mid := extracted_mem hright
    have hmid_mem : ∀ c ∈ mid, c ∈ st.join_chains := extracted_mem hleft
    have hrc_reach : ∀ x ∈ rc.tables, ReachRefs (P ++ [jref]) x jref.dst := by
      rcases hright with hperm2 | ⟨_, hsing2, _⟩
      · intro x hx
        have hrcm : rc ∈ st.join_chains :=
          hmid_mem rc (hperm2.mem_iff.mp (List.mem_cons_self _ _))
        exact reachRefs_mono (hinv.same_reach x jref.dst ⟨rc, hrcm, hx, hdstrc⟩)
      · intro x hx
        rw [hsing2] at hx
        have hxe : x = jref.dst := by simpa using hx
        subst hxe
        exact Relation.ReflTransGen.refl
    have hX_reach : ∀ x ∈ X.tables, ReachRefs (P ++ [jref]) x jref.src := by
      intro x hx
      rw [hXtab] at hx
      rcases Finset.mem_union.mp hx with hxl | hxr
      · exact hleft_reach x hxl
      · exact ((hrc_reach x hxr).trans (reachRefs_symm hedge_sd))
    have hold : ∀ c ∈ st.join_chains, ∃ c' ∈ st'.join_chains, c.tables ⊆ c'.tables := by
      intro c hcm
      rcases hstep1 c hcm with hce | hcmid
      · subst hce
        exact ⟨X, hXmem, by rw [hXtab]; exact Finset.subset_union_left⟩
      · rcases hstep2 c hcmid with hce | hcpc
        · subst hce
          exact ⟨X, hXmem, by rw [hXtab]; exact Finset.subset_union_right⟩
        · exact ⟨c, by rw [hc]; exact List.mem_append_left _ hcpc, subset_rfl⟩
    have hunion : unionTables st'.join_chains = refRels (P ++ [jref]) := by
      ext x
      rw [mem_unionTables, mem_refRels_append_single]
      constructor
      · rintro ⟨c', hc', hx⟩
        rcases mem_append_singleton (by rw [← hc]; exact hc') with hcp | hce
        · left
          rw [← hinv.union_eq]
          exact mem_unionTables.mpr ⟨c', hmid_mem c' (hpc_mid c' hcp), hx⟩
        · subst hce
          rw [hXtab] at hx
          rcases Finset.mem_union.mp hx with hxl | hxr
          · rcases hleft with hperm | ⟨_, hsing, _⟩
            · left
              rw [← hinv.union_eq]
              exact mem_unionTables.mpr
                ⟨pick.left, hperm.mem_iff.mp (List.mem_cons_self _ _), hxl⟩
            · right; left
              rw [hsing] at hxl
              exact (by simpa using hxl : x = jref.src).symm
          · rcases hright with hperm2 | ⟨_, hsing2, _⟩
            · left
              rw [← hinv.union_eq]
              exact mem_unionTables.mpr
                ⟨rc, hmid_mem rc (hperm2.mem_iff.mp (List.mem_cons_self _ _)), hxr⟩
            · right; right
              rw [hsing2] at hxr
              exact (by simpa using hxr : x = jref.dst).symm
      · rintro (hx | hsx | hdx)
        · rw [← hinv.union_eq] at hx
          obtain ⟨c, hcm, hxc⟩ := mem_unionTables.mp hx
          obtain ⟨c', hc', hsub⟩ := hold c hcm
          exact ⟨c', hc', hsub hxc⟩
        · exact ⟨X, hXmem, hsx ▸ hXsrc⟩
        · exact ⟨X, hXmem, hdx ▸ hXdst⟩
    refine ⟨?_, hdisj', hunion, ?_, ?_⟩
    · -- nonempty
      intro c' hc'
      rcases mem_append_singleton (by rw [← hc]; exact hc') with hcp | hce
      · exact hinv.nonempty c' (hmid_mem c' (hpc_mid c' hcp))
      · subst hce
        exact ⟨jref.src, hXsrc⟩
    · -- same_reach
      rintro a b ⟨c', hc', ha, hb⟩
      rcases mem_append_singleton (by rw [← hc]; exact hc') with hcp | hce
      · exact reachRefs_mono
          (hinv.same_reach a b ⟨c', hmid_mem c' (hpc_mid c' hcp), ha, hb⟩)
      · subst hce
        exact (hX_reach a ha).trans (reachRefs_symm (hX_reach b hb))
    · -- reach_same
      intro a b ha hr
      refine reach_in_same_chain hdisj' ?_ ?_ ha hr
      · intro x hx
        rw [← hunion] at hx
        exact mem_unionTables.mp hx
      · intro x y hadj
        rcases adjRefs_append_single hadj with hP | ⟨hs, hd⟩ | ⟨hs, hd⟩
        · have hxr := (adjRefs_mem hP).1
          obtain ⟨c, hcm, hx, hy⟩ :=
            hinv.reach_same x y hxr (Relation.ReflTransGen.single hP)
          obtain ⟨c', hc', hsub⟩ := hold c hcm
          exact ⟨c', hc', hsub hx, hsub hy⟩
        · exact ⟨X, hXmem, hs ▸ hXsrc, hd ▸ hXdst⟩
        · exact ⟨X, hXmem, hd ▸ hXdst, hs ▸ hXsrc⟩
  · -- already-connected case
    rcases hsecond with ⟨hnone, hmid2, hdst⟩ | ⟨rc2, hsome, _⟩
    swap
    · rw [hrc] at hsome; cases hsome
    have hXmem : pick.left ∈ st'.join_chains := by
      rw [hc]
      exact List.mem_append_right _ (List.mem_singleton_self _)
    have hold : ∀ c ∈ st.join_chains, ∃ c' ∈ st'.join_chains, c.tables ⊆ c'.tables := by
      intro c hcm
      rcases hstep1 c hcm with hce | hcmid
      · subst hce
        exact ⟨pick.left, hXmem, subset_rfl⟩
      · exact ⟨c, by rw [hc]; exact List.mem_append_left _ (hmid2 ▸ hcmid), subset_rfl⟩
    have hmid_mem : ∀ c ∈ mid, c ∈ st.join_chains := extracted_mem hleft
    have hunion : unionTables st'.join_chains = refRels (P ++ [jref]) := by
      ext x
      rw [mem_unionTables, mem_refRels_append_single]
      constructor
      · rintro ⟨c', hc', hx⟩
        rcases mem_append_singleton (by rw [← hc]; exact hc') with hcp | hce
        · left
          rw [← hinv.union_eq]
          exact mem_unionTables.mpr ⟨c', hmid_mem c' (hmid2 ▸ hcp), hx⟩
        · subst hce
          rcases hleft with hperm | ⟨_, hsing, _⟩
          · left
            rw [← hinv.union_eq]
            exact mem_unionTables.mpr
              ⟨pick.left, hperm.mem_iff.mp (List.mem_cons_self _ _), hx⟩
          · right; left
            rw [hsing] at hx
            exact (by simpa using hx : x = jref.src).symm
      · rintro (hx | hsx | hdx)
        · rw [← hinv.union_eq] at hx
          obtain ⟨c, hcm, hxc⟩ := mem_unionTables.mp hx
          obtain ⟨c', hc', hsub⟩ := hold c hcm
          exact ⟨c', hc', hsub hxc⟩
        · exact ⟨pick.left, hXmem, hsx ▸ hsrc⟩
        · exact ⟨pick.left, hXmem, hdx ▸ hdst⟩
    have hX_reach : ∀ x ∈ pick.left.tables, ReachRefs (P ++ [jref]) x jref.src :=
      hleft_reach
    refine ⟨?_, hdisj', hunion, ?_, ?_⟩
    · intro c' hc'
      rcases mem_append_singleton (by rw [← hc]; exact hc') with hcp | hce
      · exact hinv.nonempty c' (hmid_mem c' (hmid2 ▸ hcp))
      · subst hce
        exact ⟨jref.src, hsrc⟩
    · rintro a b ⟨c', hc', ha, hb⟩
      rcases mem_append_singleton (by rw [← hc]; exact hc') with hcp | hce
      · exact reachRefs_mono
          (hinv.same_reach a b ⟨c', hmid_mem c' (hmid2 ▸ hcp), ha, hb⟩)
      · subst hce
        exact (hX_reach a ha).trans (reachRefs_symm (hX_reach b hb))
    · intro a b ha hr
      refine reach_in_same_chain hdisj' ?_ ?_ ha hr
      · intro x hx
        rw [← hunion] at hx
        exact mem_unionTables.mp hx
      · intro x y hadj
        rcases adjRefs_append_single hadj with hP | ⟨hs, hd⟩ | ⟨hs, hd⟩
        · have hxr := (adjRefs_mem hP).1
          obtain ⟨c, hcm, hx, hy⟩ :=
            hinv.reach_same x y hxr (Relation.ReflTransGen.single hP)
          obtain ⟨c', hc', hsub⟩ := hold c hcm
          exact ⟨c', hc', hsub hx, hsub hy⟩
        · exact ⟨pick.left, hXmem, hs ▸ hsrc, hd ▸ hdst⟩
        · exact ⟨pick.left, hXmem, hd ▸ hdst, hs ▸ hsrc⟩


lemma chainsInv_nil : ChainsInv [] [] := by
  refine ⟨?_, ?_, ?_, ?_, ?_⟩
  · intro c hc
    cases hc
  · exact List.Pairwise.nil
  · rfl
  · rintro a b ⟨c, hc, _⟩
    cases hc
  · intro a b ha _
    simp [refRels] at ha

/-- The chains invariant is carried through the whole fold. -/
lemma fold_chainsInv {name : String} {qg : QueryGraph} {m : String → Option MirNodeRef} :
    ∀ (refs P : List JoinRef) (st st' : MakeJoinsState),
    ChainsInv P st.join_chains →
    refs.foldlM (make_joins_step name qg m) st = Except.ok st' →
    ChainsInv (P ++ refs) st'.join_chains
  | [], P, st, st', hinv, h => by
    have hst : st = st' := by simpa [pure, Except.pure] using h
    subst hst
    rw [List.append_nil]
    exact hinv
  | (r :: refs), P, st, st', hinv, h => by
    obtain ⟨st1, hstep, hrest⟩ := foldlM_ok_cons h
    have h1 := step_chainsInv hinv hstep
    have h2 := fold_chainsInv refs (P ++ [r]) st1 st' h1 hrest
    rw [List.append_assoc] at h2
    exact h2

/-- A connected, nonempty reference list leaves exactly one chain,
covering all referenced relations. -/
lemma chainsInv_connected_unique {J : List JoinRef} {chains : List JoinChain}
    (hinv : ChainsInv J chains) (hne : (refRels J).Nonempty)
    (hconn : ∀ a b, a ∈ refRels J → b ∈ refRels J → ReachRefs J a b) :
    ∃ c, chains = [c] ∧ c.tables = refRels J := by
  obtain ⟨x, hsrc_rel⟩ := hne
  have hsrc_un : x ∈ unionTables chains := by
    rw [hinv.union_eq]
    exact hsrc_rel
  obtain ⟨c0, hc0, hsrc0⟩ := mem_unionTables.mp hsrc_un
  have hall : ∀ c ∈ chains, c = c0 := by
    intro c hcm
    obtain ⟨y, hy⟩ := hinv.nonempty c hcm
    have hy_rel : y ∈ refRels J := by
      rw [← hinv.union_eq]
      exact mem_unionTables.mpr ⟨c, hcm, hy⟩
    obtain ⟨d, hdm, hyd, hsd⟩ :=
      hinv.reach_same y x hy_rel (hconn y x hy_rel hsrc_rel)
    have h1 : d = c := eq_of_shared_table hinv.disj hdm hcm hyd hy
    have h2 : d = c0 := eq_of_shared_table hinv.disj hdm hc0 hsd hsrc0
    rw [← h1, h2]
  have hchains : chains = [c0] := by
    cases hch : chains with
    | nil =>
      rw [hch] at hc0
      cases hc0
    | cons a t =>
      have ha : a = c0 := hall a (by rw [hch]; exact List.mem_cons_self _ _)
      have ht : t = [] := by
        cases hth : t with
        | nil => rfl
        | cons b t2 =>
          have hb : b = c0 := hall b (by
            rw [hch, hth]
            exact List.mem_cons_of_mem _ (List.mem_cons_self _ _))
          have hpw := hinv.disj
          rw [hch, hth] at hpw
          obtain ⟨hhead, _⟩ := List.pairwise_cons.mp hpw
          have hdisj := hhead b (List.mem_cons_self _ _)
          rw [ha, hb] at hdisj
          obtain ⟨y, hy⟩ := hinv.nonempty c0 hc0
          exact absurd hy (Finset.disjoint_left.mp hdisj hy)
      rw [ha, ht]
  refine ⟨c0, hchains, ?_⟩
  rw [← hinv.union_eq, hchains]
  simp [unionTables]


lemma from_join_ref_error_ne_missing {jref : JoinRef} {qg : QueryGraph} {e : PlanError}
    (h : from_join_ref jref qg = Except.error e) : e ≠ PlanError.missingRelation := by
  unfold from_join_ref at h
  split at h
  · have he : e = PlanError.missingEdge := by simpa using h.symm
    subst he
    simp
  · split at h
    · cases h
    · have he : e = PlanError.missingPredicate := by simpa using h.symm
      subst he
      simp
  · split at h
    · cases h
    · have he : e = PlanError.missingPredicate := by simpa using h.symm
      subst he
      simp
  · have he : e = PlanError.groupByEdge := by simpa using h.symm
    subst he
    simp

/-- A failing `pick_join_chains` pins down a relation absent from both
the active chains and the leaf map. -/
lemma pick_error_inv {src dst : String} {chains : List JoinChain}
    {m : String → Option MirNodeRef} {e : PlanError}
    (h : pick_join_chains src dst chains m = Except.error e) :
    (m src = none ∧ ∀ d ∈ chains, src ∉ d.tables) ∨
    (m dst = none ∧ ∀ d ∈ chains, dst ∉ d.tables) := by
  unfold pick_join_chains at h
  split at h
  · next e0 hcf =>
    have he : e0 = e := by simpa using h
    subst he
    obtain ⟨_, hall, hm⟩ := chainFor_error_eq hcf
    exact Or.inl ⟨hm, hall⟩
  · next left_chain chains1 hcf =>
    obtain ⟨hsl, hldec⟩ := chainFor_ok hcf
    split at h
    · cases h
    · next hdst =>
      split at h
      · next e0 hcf2 =>
        have he : e0 = e := by simpa using h
        subst he
        obtain ⟨_, hall1, hm⟩ := chainFor_error_eq hcf2
        right
        refine ⟨hm, ?_⟩
        have hnd : dst ∉ left_chain.tables := by
          simp [JoinChain.has_table] at hdst
          exact hdst
        intro d hd
        rcases hldec with hperm | ⟨hc1, _, _⟩
        · rcases List.mem_cons.mp (hperm.mem_iff.mpr hd) with hde | hdm
          · rw [hde]
            exact hnd
          · exact hall1 d hdm
        · exact hall1 d (by rw [hc1]; exact hd)
      · cases h


lemma step_error_inv {name : String} {qg : QueryGraph} {m : String → Option MirNodeRef}
    {st : MakeJoinsState} {jref : JoinRef} {e : PlanError}
    (h : make_joins_step name qg m st jref = Except.error e) :
    from_join_ref jref qg = Except.error e ∨
    pick_join_chains jref.src jref.dst st.join_chains m = Except.error e := by
  unfold make_joins_step at h
  split at h
  · next e0 hfr =>
    have he : e0 = e := by simpa using h
    subst he
    exact Or.inl hfr
  · next jt jp hfr =>
    split at h
    · next e0 hpk =>
      have he : e0 = e := by simpa using h
      subst he
      exact Or.inr hpk
    · next pick hpk =>
      split at h <;> cases h

/-- When every reference's endpoints are leaf-map keys or appear in an
earlier reference, the fold never hits the missing-relation panic. -/
lemma fold_no_missing {name : String} {qg : QueryGraph} {m : String → Option MirNodeRef} :
    ∀ (refs P : List JoinRef) (st : MakeJoinsState),
    ChainsInv P st.join_chains →
    (∀ (pre post : List JoinRef) (r : JoinRef), refs = pre ++ r :: post →
      (m r.src ≠ none ∨ r.src ∈ refRels (P ++ pre)) ∧
      (m r.dst ≠ none ∨ r.dst ∈ refRels (P ++ pre))) →
    refs.foldlM (make_joins_step name qg m) st ≠ Except.error PlanError.missingRelation
  | [], P, st, hinv, hyp => by
    intro hcontra
    simp [pure, Except.pure] at hcontra
  | (r :: refs), P, st, hinv, hyp => by
    intro hcontra
    rw [List.foldlM_cons] at hcontra
    cases hstep : make_joins_step name qg m st r with
    | error e =>
      rw [hstep] at hcontra
      have h2 : (Except.error e : Except PlanError MakeJoinsState) =
          Except.error PlanError.missingRelation := hcontra
      have he : e = PlanError.missingRelation := by simpa using h2
      subst he
      obtain ⟨hsrc_h, hdst_h⟩ := hyp [] refs r rfl
      rcases step_error_inv hstep with hfr | hpk
      · exact from_join_ref_error_ne_missing hfr rfl
      · rcases pick_error_inv hpk with ⟨hm, hall⟩ | ⟨hm, hall⟩
        · rcases hsrc_h with hne | hmem
          · exact hne hm
          · rw [List.append_nil, ← hinv.union_eq] at hmem
            obtain ⟨c, hcm, hxc⟩ := mem_unionTables.mp hmem
            exact hall c hcm hxc
        · rcases hdst_h with hne | hmem
          · exact hne hm
          · rw [List.append_nil, ← hinv.union_eq] at hmem
            obtain ⟨c, hcm, hxc⟩ := mem_unionTables.mp hmem
            exact hall c hcm hxc
    | ok st1 =>
      rw [hstep] at hcontra
      have hinv1 := step_chainsInv hinv hstep
      refine fold_no_missing refs (P ++ [r]) st1 hinv1 ?_ hcontra
      intro pre post r2 hsplit
      have hres := hyp (r :: pre) post r2 (by rw [hsplit]; rfl)
      have heq : P ++ r :: pre = (P ++ [r]) ++ pre := by
        rw [List.append_assoc]
        rfl
      rw [heq] at hres
      exact hres


/-! ### Claim theorems -/

/-- C5: `merge_chain` returns a chain whose table set is exactly the
set union of the two inputs' table sets (a `Finset`: no duplicates, no
omissions) and whose terminal node is the supplied node; it is total in
both chains, with no disjointness check on the inputs. -/
theorem merge_chain_spec (c1 c2 : JoinChain) (n : MirNodeRef) :
    (c1.merge_chain c2 n).tables = c1.tables ∪ c2.tables ∧
    (c1.merge_chain c2 n).last_node = n :=
  ⟨rfl, rfl⟩

/-- C7: a join reference with identical source and destination never
produces a physical join node: whenever its step succeeds, the output
node list and the node counter are untouched. -/
theorem self_join_no_node {name : String} {qg : QueryGraph}
    {m : String → Option MirNodeRef} {st st' : MakeJoinsState} {jref : JoinRef}
    (hself : jref.src = jref.dst)
    (h : make_joins_step name qg m st jref = Except.ok st') :
    st'.join_nodes = st.join_nodes ∧ st'.node_count = st.node_count := by
  obtain ⟨jt, jp, pick, hfr, hpk, hcase⟩ := step_ok h
  obtain ⟨hsrc, mid, hleft, hsecond⟩ := pick_ok hpk
  rcases hcase with ⟨rc, hrc, hn, hc, hcnt⟩ | ⟨hrc, hn, hc, hcnt⟩
  · rcases hsecond with ⟨hnone, _, _⟩ | ⟨rc2, hsome, hnotin, _, _⟩
    · rw [hrc] at hnone
      cases hnone
    · exact absurd (hself ▸ hsrc) hnotin
  · exact ⟨hn, hcnt⟩

/-- Witness for C7 on the concrete self-join fixture. -/
theorem self_join_no_node_witness :
    (⟨[], [⟨{"A"}, MirNodeRef.base 0⟩], 0⟩ : MakeJoinsState).join_nodes =
        (⟨[], [], 0⟩ : MakeJoinsState).join_nodes ∧
    (⟨[], [⟨{"A"}, MirNodeRef.base 0⟩], 0⟩ : MakeJoinsState).node_count =
        (⟨[], [], 0⟩ : MakeJoinsState).node_count :=
  @self_join_no_node "q" wQgSelf wNfr ⟨[], [], 0⟩
    ⟨[], [⟨{"A"}, MirNodeRef.base 0⟩], 0⟩ ⟨"A", "A", 0⟩ rfl (by decide)

/-- C6: each processing step preserves the invariant that no two live
chains of the active set share a relation identifier, across all four
step behaviours (singleton creation, removal, reinsert, merge). -/
theorem step_preserves_disjoint {name : String} {qg : QueryGraph}
    {m : String → Option MirNodeRef} {st st' : MakeJoinsState} {jref : JoinRef}
    (hdisj : ChainsDisjoint st.join_chains)
    (h : make_joins_step name qg m st jref = Except.ok st') :
    ChainsDisjoint st'.join_chains :=
  step_disjoint hdisj h

/-- Witness for C6 on the concrete two-relation merge. -/
theorem step_preserves_disjoint_witness :
    ChainsDisjoint (⟨[wJn], [⟨{"A", "B"}, wJn⟩], 1⟩ : MakeJoinsState).join_chains :=
  @step_preserves_disjoint "q" wQg wNfr ⟨[], [], 0⟩
    ⟨[wJn], [⟨{"A", "B"}, wJn⟩], 1⟩ ⟨"A", "B", 0⟩ List.Pairwise.nil (by decide)

/-- C3: processing the same (source, destination) join reference twice
creates exactly one join node: immediately after a successful step for
a reference, re-running the step for the same reference succeeds, finds
the destination in the source's chain, builds no node (output list and
counter unchanged) and only reinserts the chain, permuting the active
set. -/
theorem rejoin_idempotent {name : String} {qg : QueryGraph}
    {m : String → Option MirNodeRef} {st st' : MakeJoinsState} {jref : JoinRef}
    (hdisj : ChainsDisjoint st.join_chains)
    (h : make_joins_step name qg m st jref = Except.ok st') :
    ∃ st'', make_joins_step name qg m st' jref = Except.ok st'' ∧
      st''.join_nodes = st'.join_nodes ∧ st''.node_count = st'.node_count ∧
      List.Perm st''.join_chains st'.join_chains := by
  obtain ⟨jt, jp, pick, hfr, hpk, hcase⟩ := step_ok h
  obtain ⟨c, hcm, hcs, hcd⟩ := step_has_pair h
  have hdisj' : ChainsDisjoint st'.join_chains := step_disjoint hdisj h
  exact step_already_connected hfr hdisj' hcm hcs hcd

/-- Witness for C3 on the concrete two-relation fixture. -/
theorem rejoin_idempotent_witness :
    ∃ st'', make_joins_step "q" wQg wNfr
        ⟨[wJn], [⟨{"A", "B"}, wJn⟩], 1⟩ ⟨"A", "B", 0⟩ = Except.ok st'' ∧
      st''.join_nodes = (⟨[wJn], [⟨{"A", "B"}, wJn⟩], 1⟩ : MakeJoinsState).join_nodes ∧
      st''.node_count = (⟨[wJn], [⟨{"A", "B"}, wJn⟩], 1⟩ : MakeJoinsState).node_count ∧
      List.Perm st''.join_chains
        (⟨[wJn], [⟨{"A", "B"}, wJn⟩], 1⟩ : MakeJoinsState).join_chains :=
  @rejoin_idempotent "q" wQg wNfr ⟨[], [], 0⟩
    ⟨[wJn], [⟨{"A", "B"}, wJn⟩], 1⟩ ⟨"A", "B", 0⟩ List.Pairwise.nil (by decide)

/-- C10: a join reference whose predicate index is at or past the end
of the resolved join edge's predicate list makes planning fail fatally
with the out-of-range predicate lookup, although the edge exists and is
a join edge. -/
theorem predicate_index_fatal {name : String} {qg : QueryGraph}
    {m : String → Option MirNodeRef} {st : MakeJoinsState} {jref : JoinRef}
    {jps : List ConditionTree}
    (hedge : edgesGet qg (jref.src, jref.dst) = some (QueryGraphEdge.Join jps) ∨
      edgesGet qg (jref.src, jref.dst) = some (QueryGraphEdge.LeftJoin jps))
    (hidx : jps.length ≤ jref.index) :
    make_joins_step name qg m st jref = Except.error PlanError.missingPredicate := by
  have hget : jps[jref.index]? = none := List.getElem?_eq_none hidx
  rcases hedge with h | h
  · unfold make_joins_step from_join_ref
    rw [h]
    simp [hget]
  · unfold make_joins_step from_join_ref
    rw [h]
    simp [hget]

/-- Witness for C10: index 1 into a one-predicate edge. -/
theorem predicate_index_fatal_witness :
    make_joins_step "q" wQg wNfr ⟨[], [], 0⟩ ⟨"A", "B", 1⟩ =
      Except.error PlanError.missingPredicate :=
  @predicate_index_fatal "q" wQg wNfr ⟨[], [], 0⟩ ⟨"A", "B", 1⟩ [⟨0⟩]
    (Or.inl (by decide)) (by decide)


lemma from_join_ref_swap {s d : String} {i : Nat} {qg : QueryGraph}
    {jt : JoinType} {jp : ConditionTree}
    (hsym : EdgesUnordered qg)
    (h : from_join_ref ⟨s, d, i⟩ qg = Except.ok (jt, jp)) :
    from_join_ref ⟨d, s, i⟩ qg = Except.ok (jt, jp) := by
  unfold from_join_ref at h ⊢
  dsimp only at h ⊢
  rw [hsym d s]
  exact h

lemma wQg_edges_unordered : EdgesUnordered wQg := by
  intro a b
  by_cases h1 : a = "A" ∧ b = "B"
  · obtain ⟨rfl, rfl⟩ := h1
    decide
  · by_cases h2 : a = "B" ∧ b = "A"
    · obtain ⟨rfl, rfl⟩ := h2
      decide
    · have hn1 : ¬((("A", "B") : String × String) = (a, b)) := by
        intro hc
        simp only [Prod.mk.injEq] at hc
        exact h1 ⟨hc.1.symm, hc.2.symm⟩
      have hn2 : ¬((("B", "A") : String × String) = (a, b)) := by
        intro hc
        simp only [Prod.mk.injEq] at hc
        exact h2 ⟨hc.1.symm, hc.2.symm⟩
      have hn3 : ¬((("A", "B") : String × String) = (b, a)) := by
        intro hc
        simp only [Prod.mk.injEq] at hc
        exact h2 ⟨hc.2.symm, hc.1.symm⟩
      have hn4 : ¬((("B", "A") : String × String) = (b, a)) := by
        intro hc
        simp only [Prod.mk.injEq] at hc
        exact h1 ⟨hc.2.symm, hc.1.symm⟩
      simp [edgesGet, wQg, List.find?, hn1, hn2, hn3, hn4]

/-- C1: with the query graph exposing its edges per unordered relation
pair (spec-modelled `EdgesUnordered`), once a reference `(s, d)` has
been processed successfully, the reversed reference `(d, s)` resolves
as already-connected: it succeeds, produces no new join node, leaves
the counter unchanged, and only permutes the active chain set. -/
theorem reversed_rejoin_connected {name : String} {qg : QueryGraph}
    {m : String → Option MirNodeRef} {st st' : MakeJoinsState}
    {s d : String} {i : Nat}
    (hsym : EdgesUnordered qg)
    (hdisj : ChainsDisjoint st.join_chains)
    (h : make_joins_step name qg m st ⟨s, d, i⟩ = Except.ok st') :
    ∃ st'', make_joins_step name qg m st' ⟨d, s, i⟩ = Except.ok st'' ∧
      st''.join_nodes = st'.join_nodes ∧ st''.node_count = st'.node_count ∧
      List.Perm st''.join_chains st'.join_chains := by
  obtain ⟨jt, jp, pick, hfr, hpk, hcase⟩ := step_ok h
  obtain ⟨c, hcm, hcs, hcd⟩ := step_has_pair h
  have hdisj' : ChainsDisjoint st'.join_chains := step_disjoint hdisj h
  have hfr2 : from_join_ref ⟨d, s, i⟩ qg = Except.ok (jt, jp) :=
    from_join_ref_swap hsym hfr
  exact step_already_connected hfr2 hdisj' hcm hcd hcs

/-- Witness for C1 on the concrete symmetric two-relation fixture. -/
theorem reversed_rejoin_connected_witness :
    ∃ st'', make_joins_step "q" wQg wNfr
        ⟨[wJn], [⟨{"A", "B"}, wJn⟩], 1⟩ ⟨"B", "A", 0⟩ = Except.ok st'' ∧
      st''.join_nodes = (⟨[wJn], [⟨{"A", "B"}, wJn⟩], 1⟩ : MakeJoinsState).join_nodes ∧
      st''.node_count = (⟨[wJn], [⟨{"A", "B"}, wJn⟩], 1⟩ : MakeJoinsState).node_count ∧
      List.Perm st''.join_chains
        (⟨[wJn], [⟨{"A", "B"}, wJn⟩], 1⟩ : MakeJoinsState).join_chains :=
  @reversed_rejoin_connected "q" wQg wNfr ⟨[], [], 0⟩
    ⟨[wJn], [⟨{"A", "B"}, wJn⟩], 1⟩ "A" "B" 0
    wQg_edges_unordered List.Pairwise.nil (by decide)


/-- C4: after a successful run starting at counter `n0`, the counter
equals `n0` plus the number of created nodes (one increment per node,
none for already-connected references), the k-th created node is named
`name ++ "_n" ++ repr (n0 + k)`, and all generated names are distinct. -/
theorem node_names_spec {name : String} {qg : QueryGraph}
    {m : String → Option MirNodeRef} {n0 : Nat} {st : MakeJoinsState}
    (hok : make_joins_state name qg m n0 = Except.ok st) :
    st.node_count = n0 + st.join_nodes.length ∧
    (∀ k (hk : k < st.join_nodes.length),
      nodeName (st.join_nodes.get ⟨k, hk⟩) = some (joinNodeName name (n0 + k))) ∧
    (st.join_nodes.map nodeName).Nodup := by
  have h0 : (⟨[], [], n0⟩ : MakeJoinsState).node_count =
      n0 + (⟨[], [], n0⟩ : MakeJoinsState).join_nodes.length := rfl
  have hvac : ∀ k (hk : k < (⟨[], [], n0⟩ : MakeJoinsState).join_nodes.length),
      nodeName ((⟨[], [], n0⟩ : MakeJoinsState).join_nodes.get ⟨k, hk⟩) =
        some (joinNodeName name (n0 + k)) := by
    intro k hk
    exact absurd hk (Nat.not_lt_zero k)
  obtain ⟨h1, h2⟩ := fold_names qg.join_order ⟨[], [], n0⟩ st hok h0 hvac
  refine ⟨h1, h2, ?_⟩
  rw [List.nodup_iff_injective_get]
  intro i j hij
  have hlen : (st.join_nodes.map nodeName).length = st.join_nodes.length :=
    List.length_map _ _
  have hi : (i : Nat) < st.join_nodes.length := by
    have hi0 := i.isLt
    omega
  have hj : (j : Nat) < st.join_nodes.length := by
    have hj0 := j.isLt
    omega
  have hgi : (st.join_nodes.map nodeName).get i =
      nodeName (st.join_nodes.get ⟨i, hi⟩) := by
    simp [List.getElem_map]
  have hgj : (st.join_nodes.map nodeName).get j =
      nodeName (st.join_nodes.get ⟨j, hj⟩) := by
    simp [List.getElem_map]
  rw [hgi, hgj, h2 i hi, h2 j hj] at hij
  have hinj : n0 + (i : Nat) = n0 + (j : Nat) :=
    joinNodeName_inj (by simpa using hij)
  have hij2 : (i : Nat) = (j : Nat) := by omega
  exact Fin.ext hij2

/-- Witness for C4 on the one-merge fixture. -/
theorem node_names_spec_witness :
    (⟨[wJn], [⟨{"A", "B"}, wJn⟩], 1⟩ : MakeJoinsState).node_count =
      0 + (⟨[wJn], [⟨{"A", "B"}, wJn⟩], 1⟩ : MakeJoinsState).join_nodes.length ∧
    (∀ k (hk : k < (⟨[wJn], [⟨{"A", "B"}, wJn⟩], 1⟩ : MakeJoinsState).join_nodes.length),
      nodeName ((⟨[wJn], [⟨{"A", "B"}, wJn⟩], 1⟩ : MakeJoinsState).join_nodes.get ⟨k, hk⟩) =
        some (joinNodeName "q" (0 + k))) ∧
    ((⟨[wJn], [⟨{"A", "B"}, wJn⟩], 1⟩ : MakeJoinsState).join_nodes.map nodeName).Nodup :=
  @node_names_spec "q" wQg wNfr 0 ⟨[wJn], [⟨{"A", "B"}, wJn⟩], 1⟩ (by decide)

/-- C2: when the references' underlying undirected graph is connected
(nonempty vertex set and all referenced relations mutually reachable),
a successful full run of the make_joins loop ends with exactly one
chain in the active set, whose table set is the set of all referenced
relations. -/
theorem make_joins_connected_single_chain {name : String} {qg : QueryGraph}
    {m : String → Option MirNodeRef} {n0 : Nat} {st : MakeJoinsState}
    (hne : (refRels qg.join_order).Nonempty)
    (hconn : ∀ a b, a ∈ refRels qg.join_order → b ∈ refRels qg.join_order →
      ReachRefs qg.join_order a b)
    (hok : make_joins_state name qg m n0 = Except.ok st) :
    ∃ c, st.join_chains = [c] ∧ c.tables = refRels qg.join_order := by
  have hinv := fold_chainsInv qg.join_order [] ⟨[], [], n0⟩ st chainsInv_nil hok
  rw [List.nil_append] at hinv
  exact chainsInv_connected_unique hinv hne hconn

/-- Witness for C2 on the one-edge fixture. -/
theorem make_joins_connected_single_chain_witness :
    ∃ c, (⟨[wJn], [⟨{"A", "B"}, wJn⟩], 1⟩ : MakeJoinsState).join_chains = [c] ∧
      c.tables = refRels wQg.join_order :=
  @make_joins_connected_single_chain "q" wQg wNfr 0
    ⟨[wJn], [⟨{"A", "B"}, wJn⟩], 1⟩ ⟨"A", by decide⟩
    (by
      have hchar : ∀ x, x ∈ refRels wQg.join_order → x = "A" ∨ x = "B" := by
        intro x hx
        obtain ⟨r, hr, hc⟩ := mem_refRels.mp hx
        have hre : r = ⟨"A", "B", 0⟩ := by simpa [wQg] using hr
        subst hre
        rcases hc with h | h
        · exact Or.inl h.symm
        · exact Or.inr h.symm
      have hAB : ReachRefs wQg.join_order "A" "B" :=
        reachRefs_single (r := ⟨"A", "B", 0⟩) (by decide)
      intro a b ha hb
      rcases hchar a ha with rfl | rfl <;> rcases hchar b hb with rfl | rfl
      · exact Relation.ReflTransGen.refl
      · exact hAB
      · exact reachRefs_symm hAB
      · exact Relation.ReflTransGen.refl)
    (by decide)


lemma from_join_ref_groupBy_inv {jref : JoinRef} {qg : QueryGraph}
    (h : from_join_ref jref qg = Except.error PlanError.groupByEdge) :
    ∃ g, edgesGet qg (jref.src, jref.dst) = some (QueryGraphEdge.GroupBy g) := by
  unfold from_join_ref at h
  split at h
  · simp at h
  · split at h
    · cases h
    · simp at h
  · split at h
    · cases h
    · simp at h
  · next g hedge =>
    exact ⟨g, hedge⟩

/-- When every reference resolves to an inner- or left-join edge, the
fold can never abort with the group-by panic. -/
lemma fold_no_groupBy {name : String} {qg : QueryGraph} {m : String → Option MirNodeRef} :
    ∀ (refs : List JoinRef) (st : MakeJoinsState),
    (∀ r ∈ refs, ∃ jps, edgesGet qg (r.src, r.dst) = some (QueryGraphEdge.Join jps) ∨
      edgesGet qg (r.src, r.dst) = some (QueryGraphEdge.LeftJoin jps)) →
    refs.foldlM (make_joins_step name qg m) st ≠ Except.error PlanError.groupByEdge
  | [], st, hyp => by
    intro hcontra
    simp [pure, Except.pure] at hcontra
  | (r :: refs), st, hyp => by
    intro hcontra
    rw [List.foldlM_cons] at hcontra
    cases hstep : make_joins_step name qg m st r with
    | error e =>
      rw [hstep] at hcontra
      have h2 : (Except.error e : Except PlanError MakeJoinsState) =
          Except.error PlanError.groupByEdge := hcontra
      have he : e = PlanError.groupByEdge := by simpa using h2
      subst he
      rcases step_error_inv hstep with hfr | hpk
      · obtain ⟨g, hg⟩ := from_join_ref_groupBy_inv hfr
        obtain ⟨jps, hj⟩ := hyp r (List.mem_cons_self _ _)
        rcases hj with hj | hj <;> rw [hg] at hj <;> cases hj
      · have := pick_error hpk
        cases this
    | ok st1 =>
      rw [hstep] at hcontra
      exact fold_no_groupBy refs st1
        (fun r2 hr2 => hyp r2 (List.mem_cons_of_mem _ hr2)) hcontra

lemma make_joins_error_iff {name : String} {qg : QueryGraph}
    {m : String → Option MirNodeRef} {n0 : Nat} {e : PlanError} :
    make_joins name qg m n0 = Except.error e ↔
      make_joins_state name qg m n0 = Except.error e := by
  unfold make_joins
  cases hst : make_joins_state name qg m n0 with
  | error e2 => simp [Except.map]
  | ok s => simp [Except.map]

/-- C8: a join reference resolving to a group-by edge makes the step
abort with the dedicated fatal error (no default classification); and
under the precondition that every reference of the plan resolves to an
inner- or left-join edge, this failure is unreachable for the whole
run. -/
theorem group_by_edge_fatal {name : String} {qg : QueryGraph}
    {m : String → Option MirNodeRef} {st : MakeJoinsState} {jref : JoinRef} :
    (∀ g, edgesGet qg (jref.src, jref.dst) = some (QueryGraphEdge.GroupBy g) →
      make_joins_step name qg m st jref = Except.error PlanError.groupByEdge) ∧
    ((∀ r ∈ qg.join_order, ∃ jps,
        edgesGet qg (r.src, r.dst) = some (QueryGraphEdge.Join jps) ∨
        edgesGet qg (r.src, r.dst) = some (QueryGraphEdge.LeftJoin jps)) →
      ∀ n0, make_joins name qg m n0 ≠ Except.error PlanError.groupByEdge) := by
  constructor
  · intro g hedge
    unfold make_joins_step from_join_ref
    rw [hedge]
  · intro hyp n0 hcontra
    exact fold_no_groupBy qg.join_order ⟨[], [], n0⟩ hyp
      (make_joins_error_iff.mp hcontra)

/-- Witness for C8: the group-by fixture aborts, and the join fixture
can never produce the group-by error. -/
theorem group_by_edge_fatal_witness :
    make_joins_step "q" wQgGB wNfr ⟨[], [], 0⟩ ⟨"A", "B", 0⟩ =
        Except.error PlanError.groupByEdge ∧
    make_joins "q" wQg wNfr 0 ≠ Except.error PlanError.groupByEdge := by
  constructor
  · exact (@group_by_edge_fatal "q" wQgGB wNfr ⟨[], [], 0⟩ ⟨"A", "B", 0⟩).1
      0 (by decide)
  · refine (@group_by_edge_fatal "q" wQg wNfr ⟨[], [], 0⟩ ⟨"A", "B", 0⟩).2 ?_ 0
    intro r hr
    have hre : r = ⟨"A", "B", 0⟩ := by simpa [wQg] using hr
    subst hre
    exact ⟨[⟨0⟩], Or.inl (by decide)⟩


lemma chainFor_ok_mem_or_m {t : String} {l : List JoinChain}
    {m : String → Option MirNodeRef} {c : JoinChain} {l' : List JoinChain}
    (h : chainFor t l m = Except.ok (c, l')) :
    c ∈ l ∨ m t ≠ none := by
  unfold chainFor at h
  split at h
  · next r hr =>
    have hrc : r = (c, l') := by simpa using h
    subst hrc
    exact Or.inl ((removeChainWith_some hr).2.mem_iff.mp (List.mem_cons_self _ _))
  · split at h
    · next n hn =>
      exact Or.inr (by simp [hn])
    · cases h

/-- C9: a reference endpoint found in no live chain and absent from the
leaf-node map makes the step abort fatally; and under the precondition
that every referenced identifier is a leaf-map key or appears in an
earlier reference, a full run never fails with the missing-relation
error. -/
theorem missing_relation_fatal {name : String} {qg : QueryGraph}
    {m : String → Option MirNodeRef} {st : MakeJoinsState} {jref : JoinRef} :
    (∀ x, (x = jref.src ∨ x = jref.dst) → (∀ d ∈ st.join_chains, x ∉ d.tables) →
      m x = none → ∃ e, make_joins_step name qg m st jref = Except.error e) ∧
    ((∀ (pre post : List JoinRef) (r : JoinRef), qg.join_order = pre ++ r :: post →
        (m r.src ≠ none ∨ r.src ∈ refRels pre) ∧
        (m r.dst ≠ none ∨ r.dst ∈ refRels pre)) →
      ∀ n0, make_joins name qg m n0 ≠ Except.error PlanError.missingRelation) := by
  constructor
  · intro x hx h1 h2
    cases hfr : from_join_ref jref qg with
    | error e =>
      refine ⟨e, ?_⟩
      unfold make_joins_step
      rw [hfr]
    | ok p =>
      obtain ⟨jt, jp⟩ := p
      refine ⟨PlanError.missingRelation, ?_⟩
      have hpk : pick_join_chains jref.src jref.dst st.join_chains m =
          Except.error PlanError.missingRelation := by
        rcases hx with rfl | rfl
        · have hcf : chainFor jref.src st.join_chains m =
              Except.error PlanError.missingRelation := chainFor_error h1 h2
          unfold pick_join_chains
          rw [hcf]
        · cases hcfs : chainFor jref.src st.join_chains m with
          | error e2 =>
            have he2 : e2 = PlanError.missingRelation := (chainFor_error_eq hcfs).1
            subst he2
            unfold pick_join_chains
            rw [hcfs]
          | ok pr =>
            obtain ⟨left, chains1⟩ := pr
            obtain ⟨hsl, hdec⟩ := chainFor_ok hcfs
            have hndl : jref.dst ∉ left.tables := by
              rcases hdec with hperm | ⟨hc1, hsing, hfresh⟩
              · exact h1 left (hperm.mem_iff.mp (List.mem_cons_self _ _))
              · rw [hsing]
                intro hmem
                have hds : jref.dst = jref.src := by simpa using hmem
                rcases chainFor_ok_mem_or_m hcfs with hin | hm
                · apply h1 left hin
                  rw [hsing, hds]
                  exact Finset.mem_singleton_self _
                · exact hm (hds ▸ h2)
            have hall1 : ∀ d ∈ chains1, jref.dst ∉ d.tables := by
              intro d hd
              rcases hdec with hperm | ⟨hc1, _, _⟩
              · exact h1 d (hperm.mem_iff.mp (List.mem_cons_of_mem _ hd))
              · exact h1 d (by rw [hc1] at hd; exact hd)
            have hcfd : chainFor jref.dst chains1 m =
                Except.error PlanError.missingRelation := chainFor_error hall1 h2
            have hht : left.has_table jref.dst = false := by
              simp [JoinChain.has_table, hndl]
            unfold pick_join_chains
            rw [hcfs]
            simp [hht, hcfd]
      unfold make_joins_step
      rw [hfr]
      simp [hpk]
  · intro hyp n0 hcontra
    have hfold := make_joins_error_iff.mp hcontra
    refine fold_no_missing qg.join_order [] ⟨[], [], n0⟩ chainsInv_nil ?_ hfold
    intro pre post r hsplit
    rw [List.nil_append]
    exact hyp pre post r hsplit

/-- Witness for C9: an unmapped relation `D` aborts, and the covered
fixture can never produce the missing-relation error. -/
theorem missing_relation_fatal_witness :
    (∃ e, make_joins_step "q" wQg wNfr ⟨[], [], 0⟩ ⟨"D", "A", 0⟩ = Except.error e) ∧
    make_joins "q" wQg wNfr 0 ≠ Except.error PlanError.missingRelation := by
  constructor
  · exact (@missing_relation_fatal "q" wQg wNfr ⟨[], [], 0⟩ ⟨"D", "A", 0⟩).1
      "D" (Or.inl rfl) (by intro d hd; cases hd) (by decide)
  · refine (@missing_relation_fatal "q" wQg wNfr ⟨[], [], 0⟩ ⟨"A", "B", 0⟩).2 ?_ 0
    intro pre post r hsplit
    cases pre with
    | nil =>
      rw [List.nil_append] at hsplit
      have h2 : (⟨"A", "B", 0⟩ : JoinRef) = r ∧ post = ([] : List JoinRef) := by
        simpa [wQg] using hsplit
      obtain ⟨hr, _⟩ := h2
      rw [← hr]
      exact ⟨Or.inl (by decide), Or.inl (by decide)⟩
    | cons y ys =>
      exfalso
      have hlen := congrArg List.length hsplit
      simp [wQg] at hlen

end NoriaJoin
